import Mathlib

/-!
Verification of the cache simulator (src/cache_simulator.c).

The C program models a set-associative cache: a cache is an array of sets,
each set an array of lines carrying a valid bit, a tag and an age stamp.
`lookup` bumps the instruction counter, splits an address into tag and set
index, searches the set for a valid matching tag (a hit, refreshing the
line's age), and otherwise resolves a miss by installing the tag in the
first invalid line or, when the set is full, evicting the line with the
smallest age.

The shallow embedding below mirrors the C source function by function.
Machine integers are modelled as natural numbers; the 32-bit complement in
`tag_for` is made explicit by XOR with the 32-bit all-ones mask, matching
the bit pattern the C `~` produces on a non-negative `int`.
-/

/-- One cache line, as in `cache_line_t` (the unused `data` pointer is
dropped; `dirty` is kept although the program never reads it). -/
structure CacheLine where
  valid : Bool
  dirty : Bool
  tag : Nat
  age : Nat
deriving DecidableEq, Repr

/-- One cache set, as in `cache_set_t`: its array of lines. -/
structure CacheSet where
  lines : List CacheLine
deriving DecidableEq, Repr

/-- The cache, as in `cache_t` (the verbose flag, pure I/O, is dropped).
`instr_count` is the spec's `access_counter`. -/
structure Cache where
  set_bits : Nat
  associativity : Nat
  block_bits : Nat
  num_sets : Nat
  num_blocks : Nat
  miss_count : Nat
  hit_count : Nat
  evict_count : Nat
  instr_count : Nat
  set_arry : List CacheSet
deriving DecidableEq, Repr

/-- Read element `n` of a list, with a default for an out-of-range index
(the functional counterpart of the C array read). -/
def nth {α : Type} (d : α) : List α → Nat → α
  | [], _ => d
  | a :: _, 0 => a
  | _ :: as, n + 1 => nth d as n

/-- Replace element `n` of a list; out of range, the list is unchanged
(the functional counterpart of the C array write). -/
def set_nth {α : Type} : List α → Nat → α → List α
  | [], _, _ => []
  | _ :: as, 0, v => v :: as
  | a :: as, n + 1, v => a :: set_nth as n v

/-- Apply `f` to element `n` of a list of lines; out of range, unchanged. -/
def modify_line : List CacheLine → Nat → (CacheLine → CacheLine) → List CacheLine
  | [], _, _ => []
  | l :: ls, 0, f => f l :: ls
  | l :: ls, n + 1, f => l :: modify_line ls n f

/-- `make_cache_line`: a freshly zeroed line. -/
def make_cache_line : CacheLine :=
  { valid := false, dirty := false, tag := 0, age := 0 }

/-- Read line `n` of a list of lines (out of range: a zeroed line). -/
def nth_line (ls : List CacheLine) (n : Nat) : CacheLine :=
  nth make_cache_line ls n

/-- Read set `n` of a list of sets (out of range: an empty set). -/
def nth_set (ss : List CacheSet) (n : Nat) : CacheSet :=
  nth ⟨[]⟩ ss n

/-- `make_cache_set`: `associativity` freshly zeroed lines. -/
def make_cache_set (associativity : Nat) : CacheSet :=
  ⟨List.replicate associativity make_cache_line⟩

/-- `make_cache`: geometry fields, zero counters, and `num_sets + 1` sets
where `num_sets = 2 ^ set_bits - 1` (so exactly `2 ^ set_bits` sets). -/
def make_cache (set_bits associativity block_bits : Nat) : Cache :=
  let num_sets := 2 ^ set_bits - 1
  { set_bits := set_bits
    associativity := associativity
    block_bits := block_bits
    num_sets := num_sets
    num_blocks := 2 ^ block_bits - 1
    miss_count := 0
    hit_count := 0
    evict_count := 0
    instr_count := 0
    set_arry := List.replicate (num_sets + 1) (make_cache_set associativity) }

/-- `set_for`: `((num_sets << block_bits) & address) >> block_bits`. -/
def set_for (address : Nat) (cache : Cache) : Nat :=
  let set_mask := cache.num_sets <<< cache.block_bits
  (set_mask &&& address) >>> cache.block_bits

/-- The C `~` on a non-negative 32-bit `int`, as a bit pattern. -/
def int_not (x : Nat) : Nat := x ^^^ (2 ^ 32 - 1)

/-- `tag_for`: `(~(num_blocks | (num_sets << block_bits)) & address) >>
(set_bits + block_bits)`. -/
def tag_for (address : Nat) (cache : Cache) : Nat :=
  let sets_and_blocks := cache.num_blocks ||| (cache.num_sets <<< cache.block_bits)
  (int_not sets_and_blocks &&& address) >>> (cache.set_bits + cache.block_bits)

/-- The scan inside `check_for_hit`: find the first line with the wanted
tag and the valid bit set, refresh its age, and report the updated list;
`none` when no line matches. -/
def hit_scan (instr my_tag : Nat) : List CacheLine → Option (List CacheLine)
  | [] => none
  | l :: ls =>
    if l.tag = my_tag ∧ l.valid = true then
      some ({ l with age := instr } :: ls)
    else
      match hit_scan instr my_tag ls with
      | some ls2 => some (l :: ls2)
      | none => none

/-- `check_for_hit`: on a hit, the age of the matching line is refreshed
and `hit_count` is incremented; otherwise nothing changes. Returns the C
function's 1/0 result as a `Bool`, with the updated set and cache. -/
def check_for_hit (cache : Cache) (correct_set : CacheSet) (my_tag : Nat) :
    Bool × CacheSet × Cache :=
  match hit_scan cache.instr_count my_tag correct_set.lines with
  | some ls => (true, ⟨ls⟩, { cache with hit_count := cache.hit_count + 1 })
  | none => (false, correct_set, cache)

/-- `evict`: bump `evict_count` and overwrite the chosen line's tag and
age (the C writes through the `oldest_line` pointer; here by index). -/
def evict (cache : Cache) (correct_set : CacheSet) (oldest : Nat) (my_tag : Nat) :
    CacheSet × Cache :=
  (⟨modify_line correct_set.lines oldest
      (fun l => { l with tag := my_tag, age := cache.instr_count })⟩,
   { cache with evict_count := cache.evict_count + 1 })

/-- The install half of the scan in `miss`: put the tag in the first
invalid line (`valid := 1`, age refreshed); `none` when every line is
valid. -/
def install_first_invalid (instr my_tag : Nat) : List CacheLine → Option (List CacheLine)
  | [] => none
  | l :: ls =>
    if l.valid = false then
      some ({ l with tag := my_tag, valid := true, age := instr } :: ls)
    else
      match install_first_invalid instr my_tag ls with
      | some ls2 => some (l :: ls2)
      | none => none

/-- The oldest-line tracking of the scan in `miss`: starting from the
accumulated best index and its age, keep the line whose age is strictly
smaller than the best so far (so ties keep the earlier line). -/
def oldest_scan : List CacheLine → Nat → Nat → Nat → Nat
  | [], _, best, _ => best
  | l :: ls, i, best, best_age =>
    if l.age < best_age then oldest_scan ls (i + 1) i l.age
    else oldest_scan ls (i + 1) best best_age

/-- Index of the victim line: the C loop starts with `oldest_line =
&lines[0]` and scans from index 0 (the first comparison of line 0 with
itself never fires). -/
def oldest_idx (ls : List CacheLine) : Nat :=
  oldest_scan ls 0 0 (nth_line ls 0).age

/-- `miss`: bump `miss_count`; install the tag in the first invalid line
when one exists, otherwise evict the line the age scan selects. -/
def miss (cache : Cache) (correct_set : CacheSet) (my_tag : Nat) : CacheSet × Cache :=
  let cache2 := { cache with miss_count := cache.miss_count + 1 }
  match install_first_invalid cache2.instr_count my_tag correct_set.lines with
  | some ls => (⟨ls⟩, cache2)
  | none => evict cache2 correct_set (oldest_idx correct_set.lines) my_tag

/-- `lookup`: bump `instr_count`, split the address, fetch the set, try
`check_for_hit`, and on failure resolve the miss; the updated set is
written back at its index. -/
def lookup (address : Nat) (cache : Cache) : Cache :=
  let cache1 := { cache with instr_count := cache.instr_count + 1 }
  let my_tag := tag_for address cache1
  let my_set := set_for address cache1
  let correct_set := nth_set cache1.set_arry my_set
  match check_for_hit cache1 correct_set my_tag with
  | (true, s2, c2) => { c2 with set_arry := set_nth c2.set_arry my_set s2 }
  | (false, s2, c2) =>
    let sc := miss c2 s2 my_tag
    { sc.2 with set_arry := set_nth sc.2.set_arry my_set sc.1 }

/-- `call_lookup`: one `lookup`, and a second one when the operation is
the modify instruction. -/
def call_lookup (int_address : Nat) (operation : Char) (cache : Cache) : Cache :=
  let cache2 := lookup int_address cache
  if operation = 'M' then lookup int_address cache2 else cache2

/-- Fold `lookup` over a list of addresses. -/
def run_lookups (addrs : List Nat) (cache : Cache) : Cache :=
  addrs.foldl (fun c a => lookup a c) cache

/-- Fold `call_lookup` over a trace of (operation, address) records, as
`read_file` does for the records it accepts. -/
def run_trace (trace : List (Char × Nat)) (cache : Cache) : Cache :=
  trace.foldl (fun c r => call_lookup r.2 r.1 c) cache

/-- Sub-references of one record: two for a modify, one otherwise. -/
def sub_refs (operation : Char) : Nat := if operation = 'M' then 2 else 1

/-- Total sub-references of a trace. -/
def total_subrefs : List (Char × Nat) → Nat
  | [] => 0
  | r :: rs => sub_refs r.1 + total_subrefs rs

/-- Every line of every set is valid (the cache is full). -/
def all_valid (cache : Cache) : Bool :=
  cache.set_arry.all (fun st => st.lines.all (fun l => l.valid))

/-! ### Basic lemmas about the list helpers -/

theorem length_set_nth {α : Type} (as : List α) (n : Nat) (v : α) :
    (set_nth as n v).length = as.length := by
  induction as generalizing n with
  | nil => rfl
  | cons a as ih =>
    cases n with
    | zero => rfl
    | succ m => simp [set_nth, ih]

theorem nth_set_nth_ne {α : Type} (d : α) (as : List α) (n k : Nat) (v : α)
    (h : n ≠ k) : nth d (set_nth as n v) k = nth d as k := by
  induction as generalizing n k with
  | nil => rfl
  | cons a as ih =>
    cases n with
    | zero =>
      cases k with
      | zero => exact absurd rfl h
      | succ k2 => rfl
    | succ n2 =>
      cases k with
      | zero => rfl
      | succ k2 => exact ih n2 k2 (by omega)

theorem nth_set_nth_self {α : Type} (d : α) (as : List α) (n : Nat) (v : α)
    (h : n < as.length) : nth d (set_nth as n v) n = v := by
  induction as generalizing n with
  | nil => simp at h
  | cons a as ih =>
    cases n with
    | zero => rfl
    | succ m => exact ih m (by simp at h; omega)

theorem set_nth_oob {α : Type} (as : List α) (n : Nat) (v : α)
    (h : as.length ≤ n) : set_nth as n v = as := by
  induction as generalizing n with
  | nil => rfl
  | cons a as ih =>
    cases n with
    | zero => simp at h
    | succ m => simp only [set_nth]; rw [ih m (by simp at h; omega)]

theorem nth_oob {α : Type} (d : α) (as : List α) (n : Nat)
    (h : as.length ≤ n) : nth d as n = d := by
  induction as generalizing n with
  | nil => rfl
  | cons a as ih =>
    cases n with
    | zero => simp at h
    | succ m => exact ih m (by simp at h; omega)

theorem mem_set_nth {α : Type} (as : List α) (n : Nat) (v x : α)
    (h : x ∈ set_nth as n v) : x = v ∨ x ∈ as := by
  induction as generalizing n with
  | nil => simp [set_nth] at h
  | cons a as ih =>
    cases n with
    | zero =>
      rcases List.mem_cons.mp h with h1 | h2
      · exact Or.inl h1
      · exact Or.inr (List.mem_cons_of_mem a h2)
    | succ m =>
      rcases List.mem_cons.mp h with h1 | h2
      · exact Or.inr (h1 ▸ List.mem_cons_self a as)
      · rcases ih m h2 with h3 | h4
        · exact Or.inl h3
        · exact Or.inr (List.mem_cons_of_mem a h4)

theorem nth_mem {α : Type} (d : α) (as : List α) (n : Nat)
    (h : n < as.length) : nth d as n ∈ as := by
  induction as generalizing n with
  | nil => simp at h
  | cons a as ih =>
    cases n with
    | zero => exact List.mem_cons_self a as
    | succ m => exact List.mem_cons_of_mem a (ih m (by simp at h; omega))

theorem modify_line_eq (ls : List CacheLine) (n : Nat) (f : CacheLine → CacheLine)
    (h : n < ls.length) :
    modify_line ls n f = set_nth ls n (f (nth_line ls n)) := by
  induction ls generalizing n with
  | nil => simp at h
  | cons l ls ih =>
    cases n with
    | zero => rfl
    | succ m =>
      simp only [modify_line, set_nth]
      rw [ih m (by simp at h; omega)]
      rfl

theorem modify_line_oob (ls : List CacheLine) (n : Nat) (f : CacheLine → CacheLine)
    (h : ls.length ≤ n) : modify_line ls n f = ls := by
  induction ls generalizing n with
  | nil => rfl
  | cons l ls ih =>
    cases n with
    | zero => simp at h
    | succ m => simp only [modify_line]; rw [ih m (by simp at h; omega)]

/-! ### Construction (C7, C8) -/

/-- C8: for every `set_index_bits = s` and `associativity A >= 1`,
construction allocates exactly `2 ^ s` sets (not one extra beyond
`2 ^ s`), each with exactly `A` lines that are invalid with tag 0 and
age 0, and all four counters start at zero. -/
theorem make_cache_spec (s A b : Nat) (_hA : 1 ≤ A) :
    (make_cache s A b).set_arry.length = 2 ^ s ∧
    ((make_cache s A b).set_arry.all (fun st =>
      st.lines.length == A &&
        st.lines.all (fun l => !l.valid && l.tag == 0 && l.age == 0))) = true ∧
    (make_cache s A b).hit_count = 0 ∧
    (make_cache s A b).miss_count = 0 ∧
    (make_cache s A b).evict_count = 0 ∧
    (make_cache s A b).instr_count = 0 := by
  refine ⟨?_, ?_, rfl, rfl, rfl, rfl⟩
  · simp only [make_cache, List.length_replicate]
    have h1 : 1 ≤ 2 ^ s := Nat.one_le_two_pow
    omega
  · rw [List.all_eq_true]
    intro st hst
    rw [List.eq_of_mem_replicate hst]
    simp [make_cache_set, make_cache_line, List.all_eq_true]

/-- Witness for C8 at `s = 1`, `A = 2`, `b = 0`. -/
theorem make_cache_spec_witness :
    (make_cache 1 2 0).set_arry.length = 2 ^ 1 :=
  (make_cache_spec 1 2 0 (by decide)).1

/-- C7 counterexample: with `associativity = 0` (and geometry otherwise
zero) construction does not fail: `make_cache` yields an ordinary cache
with one allocated set of zero lines and zero counters, and nothing stops
the model from running on it. -/
theorem make_cache_no_validation_cex :
    (make_cache 0 0 0).set_arry.length = 1 ∧
    (make_cache 0 0 0).set_arry.all (fun st => st.lines.length == 0) = true ∧
    (make_cache 0 0 0).hit_count = 0 ∧
    (make_cache 0 0 0).miss_count = 0 ∧
    (make_cache 0 0 0).evict_count = 0 ∧
    (make_cache 0 0 0).instr_count = 0 := by
  decide

/-- C7 amended: construction never fails. For every geometry, including
`associativity = 0`, `make_cache` returns a cache with `2 ^ set_bits`
sets of `associativity` lines each and zero counters, and `main` always
proceeds to feed the trace to the model. -/
theorem make_cache_total (s A b : Nat) :
    (make_cache s A b).set_arry.length = 2 ^ s ∧
    (make_cache s A b).set_arry.all (fun st => st.lines.length == A) = true ∧
    (make_cache s A b).hit_count = 0 ∧
    (make_cache s A b).miss_count = 0 ∧
    (make_cache s A b).evict_count = 0 ∧
    (make_cache s A b).instr_count = 0 := by
  refine ⟨?_, ?_, rfl, rfl, rfl, rfl⟩
  · simp only [make_cache, List.length_replicate]
    have h1 : 1 ≤ 2 ^ s := Nat.one_le_two_pow
    omega
  · rw [List.all_eq_true]
    intro st hst
    rw [List.eq_of_mem_replicate hst]
    simp [make_cache_set]

/-! ### The concrete trace scenario (C2) -/

/-- C2 counterexample: on geometry `(0, 2, 0)` the address sequence
`[0x0, 0x1, 0x2, 0x0]` ends with `eviction_count = 2`, not 1 as claimed:
the fourth access misses on a full set, so it too evicts. -/
theorem trace_0120_cex :
    (run_lookups [0, 1, 2, 0] (make_cache 0 2 0)).evict_count = 2 ∧
    (run_lookups [0, 1, 2, 0] (make_cache 0 2 0)).evict_count ≠ 1 := by
  decide

/-- The cache state after the first `n` accesses of the C2 trace
`[0x0, 0x1, 0x2, 0x0]` on geometry `(0, 2, 0)`. -/
def trace_state (n : Nat) : Cache :=
  run_lookups (List.take n [0, 1, 2, 0]) (make_cache 0 2 0)

/-- C2 amended: on geometry `(0, 2, 0)`, processing `[0x0, 0x1, 0x2, 0x0]`
gives: access 1 a miss, access 2 a miss, access 3 a miss evicting the
line that held address `0x0`, and access 4 a miss evicting the line that
held address `0x1`; the final counters are `hit_count = 0`,
`miss_count = 4`, `eviction_count = 2`. -/
theorem trace_0120_spec :
    ((trace_state 1).hit_count = 0 ∧ (trace_state 1).miss_count = 1 ∧
      (trace_state 1).evict_count = 0) ∧
    ((trace_state 2).hit_count = 0 ∧ (trace_state 2).miss_count = 2 ∧
      (trace_state 2).evict_count = 0) ∧
    ((trace_state 3).hit_count = 0 ∧ (trace_state 3).miss_count = 3 ∧
      (trace_state 3).evict_count = 1 ∧
      (nth_line (nth_set (trace_state 2).set_arry 0).lines 0).valid = true ∧
      (nth_line (nth_set (trace_state 2).set_arry 0).lines 0).tag = 0 ∧
      (nth_line (nth_set (trace_state 3).set_arry 0).lines 0).tag = 2) ∧
    ((trace_state 4).hit_count = 0 ∧ (trace_state 4).miss_count = 4 ∧
      (trace_state 4).evict_count = 2 ∧
      (nth_line (nth_set (trace_state 3).set_arry 0).lines 1).valid = true ∧
      (nth_line (nth_set (trace_state 3).set_arry 0).lines 1).tag = 1 ∧
      (nth_line (nth_set (trace_state 4).set_arry 0).lines 1).tag = 0) ∧
    trace_state 4 = run_lookups [0, 1, 2, 0] (make_cache 0 2 0) := by
  decide

/-! ### Address decomposition (C4) -/

theorem make_cache_set_bits (s A b : Nat) : (make_cache s A b).set_bits = s := rfl

theorem make_cache_block_bits (s A b : Nat) : (make_cache s A b).block_bits = b := rfl

theorem make_cache_num_sets (s A b : Nat) : (make_cache s A b).num_sets = 2 ^ s - 1 := rfl

theorem make_cache_num_blocks (s A b : Nat) : (make_cache s A b).num_blocks = 2 ^ b - 1 := rfl

/-- The two mask fields OR together to the low `s + b` ones. -/
theorem sets_and_blocks_eq (s b : Nat) :
    (2 ^ b - 1) ||| ((2 ^ s - 1) <<< b) = 2 ^ (s + b) - 1 := by
  apply Nat.eq_of_testBit_eq
  intro i
  simp only [Nat.testBit_or, Nat.testBit_shiftLeft, Nat.testBit_two_pow_sub_one]
  by_cases h1 : i < b
  · have h2 : i < s + b := by omega
    simp [h1, h2]
  · by_cases h3 : i < s + b
    · have h4 : i ≥ b := by omega
      have h5 : i - b < s := by omega
      simp [h1, h3, h4, h5]
    · have h6 : ¬(i - b < s) := by omega
      simp [h1, h3, h6]

/-- C4: on a constructed cache, `set_for` is
`(address >>> block_bits) &&& (set_count - 1)` and `tag_for` is
`address >>> (set_index_bits + block_offset_bits)`, for every address
that fits a non-negative 32-bit `int` and any geometry whose tag, set
and offset fields fit the word. Both are plain functions of the address
and the geometry: they read no counter and touch no cache state. -/
theorem decompose_spec (s A b a : Nat) (ha : a < 2 ^ 31) (_hsb : s + b ≤ 31) :
    set_for a (make_cache s A b) = (a >>> b) &&& (2 ^ s - 1) ∧
    tag_for a (make_cache s A b) = a >>> (s + b) := by
  constructor
  · apply Nat.eq_of_testBit_eq
    intro i
    simp only [set_for, make_cache_num_sets, make_cache_block_bits,
      Nat.testBit_shiftRight, Nat.testBit_and, Nat.testBit_shiftLeft,
      Nat.testBit_two_pow_sub_one]
    have h1 : b + i ≥ b := Nat.le_add_right b i
    have h2 : b + i - b = i := by omega
    simp [h1, h2, Bool.and_comm]
  · have hu : tag_for a (make_cache s A b) =
        (int_not (2 ^ (s + b) - 1) &&& a) >>> (s + b) := by
      simp only [tag_for, make_cache_num_blocks, make_cache_num_sets,
        make_cache_set_bits, make_cache_block_bits, sets_and_blocks_eq]
    rw [hu]
    apply Nat.eq_of_testBit_eq
    intro i
    simp only [int_not, Nat.testBit_shiftRight, Nat.testBit_and, Nat.testBit_xor,
      Nat.testBit_two_pow_sub_one]
    have h0 : ¬(s + b + i < s + b) := by omega
    by_cases h2 : s + b + i < 32
    · simp [h0, h2]
    · have h3 : a.testBit (s + b + i) = false :=
        Nat.testBit_lt_two_pow
          (lt_of_lt_of_le ha (Nat.pow_le_pow_right (by omega) (by omega)))
      simp [h0, h2, h3]

/-- Witness for C4 at address 45 on geometry `(2, 1, 1)`:
the set index is `(45 >>> 1) &&& 3 = 2` and the tag `45 >>> 3 = 5`. -/
theorem decompose_spec_witness :
    set_for 45 (make_cache 2 1 1) = (45 >>> 1) &&& (2 ^ 2 - 1) ∧
    tag_for 45 (make_cache 2 1 1) = 45 >>> (2 + 1) :=
  decompose_spec 2 1 1 45 (by decide) (by decide)

/-! ### Hit detection (C3) -/

@[simp] theorem nth_line_cons_zero (l : CacheLine) (ls : List CacheLine) :
    nth_line (l :: ls) 0 = l := rfl

@[simp] theorem nth_line_cons_succ (l : CacheLine) (ls : List CacheLine) (n : Nat) :
    nth_line (l :: ls) (n + 1) = nth_line ls n := rfl

@[simp] theorem set_nth_cons_zero {α : Type} (a : α) (as : List α) (v : α) :
    set_nth (a :: as) 0 v = v :: as := rfl

@[simp] theorem set_nth_cons_succ {α : Type} (a : α) (as : List α) (n : Nat) (v : α) :
    set_nth (a :: as) (n + 1) v = a :: set_nth as n v := rfl

/-- When no line carries the tag with its valid bit set, the scan fails. -/
theorem hit_scan_eq_none (instr t : Nat) (ls : List CacheLine)
    (h : ∀ l ∈ ls, ¬(l.tag = t ∧ l.valid = true)) : hit_scan instr t ls = none := by
  induction ls with
  | nil => rfl
  | cons l ls ih =>
    have h1 : ¬(l.tag = t ∧ l.valid = true) := h l (List.mem_cons_self l ls)
    have h2 : hit_scan instr t ls = none :=
      ih (fun l' hl' => h l' (List.mem_cons_of_mem l hl'))
    simp [hit_scan, h1, h2]

/-- When some line matches, the scan refreshes the first matching line. -/
theorem hit_scan_find (instr t : Nat) (ls : List CacheLine)
    (h : ∃ l ∈ ls, l.tag = t ∧ l.valid = true) :
    ∃ j, j < ls.length ∧ (nth_line ls j).tag = t ∧ (nth_line ls j).valid = true ∧
      (∀ k, k < j → ¬((nth_line ls k).tag = t ∧ (nth_line ls k).valid = true)) ∧
      hit_scan instr t ls = some (set_nth ls j { nth_line ls j with age := instr }) := by
  induction ls with
  | nil => simp at h
  | cons l ls ih =>
    by_cases h1 : l.tag = t ∧ l.valid = true
    · refine ⟨0, by simp, h1.1, h1.2, by omega, ?_⟩
      simp [hit_scan, h1]
    · have h2 : ∃ l' ∈ ls, l'.tag = t ∧ l'.valid = true := by
        rcases h with ⟨l', hl', hp⟩
        rcases List.mem_cons.mp hl' with rfl | hm
        · exact absurd hp h1
        · exact ⟨l', hm, hp⟩
      rcases ih h2 with ⟨j, hj, hjt, hjv, hfirst, heq⟩
      refine ⟨j + 1, by simp; omega, by simpa using hjt, by simpa using hjv, ?_, ?_⟩
      · intro k hk
        cases k with
        | zero => simpa using h1
        | succ m => simpa using hfirst m (by omega)
      · simp [hit_scan, h1, heq]

/-- C3: `check_for_hit` scans the whole set. When some line holds the
tag with its valid bit set, it refreshes the age of the first such line
to the access counter, bumps `hit_count` (only), and reports a hit; when
none does, it reports no hit and changes nothing. -/
theorem check_for_hit_spec (cache : Cache) (st : CacheSet) (t : Nat) :
    ((∃ l ∈ st.lines, l.valid = true ∧ l.tag = t) →
      (check_for_hit cache st t).1 = true ∧
      (check_for_hit cache st t).2.2.hit_count = cache.hit_count + 1 ∧
      (check_for_hit cache st t).2.2.miss_count = cache.miss_count ∧
      (check_for_hit cache st t).2.2.evict_count = cache.evict_count ∧
      (check_for_hit cache st t).2.2.instr_count = cache.instr_count ∧
      ∃ j, j < st.lines.length ∧
        (nth_line st.lines j).valid = true ∧ (nth_line st.lines j).tag = t ∧
        (∀ k, k < j → ¬((nth_line st.lines k).valid = true ∧ (nth_line st.lines k).tag = t)) ∧
        (check_for_hit cache st t).2.1.lines =
          set_nth st.lines j { nth_line st.lines j with age := cache.instr_count }) ∧
    ((∀ l ∈ st.lines, ¬(l.valid = true ∧ l.tag = t)) →
      (check_for_hit cache st t).1 = false ∧
      (check_for_hit cache st t).2.1 = st ∧
      (check_for_hit cache st t).2.2 = cache) := by
  constructor
  · intro h
    rcases hit_scan_find cache.instr_count t st.lines
        (by rcases h with ⟨l, hl, hv, ht⟩; exact ⟨l, hl, ht, hv⟩) with
      ⟨j, hj, hjt, hjv, hfirst, heq⟩
    refine ⟨?_, ?_, ?_, ?_, ?_, j, hj, hjv, hjt, ?_, ?_⟩ <;>
      simp [check_for_hit, heq]
    intro k hk hkv
    exact fun hkt => hfirst k hk ⟨hkt, hkv⟩
  · intro h
    have hn : hit_scan cache.instr_count t st.lines = none :=
      hit_scan_eq_none cache.instr_count t st.lines
        (fun l hl => by have := h l hl; tauto)
    simp [check_for_hit, hn]

/-! ### Miss resolution (C1) -/

/-- With every line valid, the install scan fails. -/
theorem install_eq_none (instr t : Nat) (ls : List CacheLine)
    (h : ∀ l ∈ ls, l.valid = true) : install_first_invalid instr t ls = none := by
  induction ls with
  | nil => rfl
  | cons l ls ih =>
    have h1 : l.valid = true := h l (List.mem_cons_self l ls)
    have h2 : install_first_invalid instr t ls = none :=
      ih (fun l' hl' => h l' (List.mem_cons_of_mem l hl'))
    simp [install_first_invalid, h1, h2]

/-- With some invalid line, the install scan fills the first one. -/
theorem install_find (instr t : Nat) (ls : List CacheLine)
    (h : ∃ l ∈ ls, l.valid = false) :
    ∃ j, j < ls.length ∧ (nth_line ls j).valid = false ∧
      (∀ k, k < j → (nth_line ls k).valid = true) ∧
      install_first_invalid instr t ls =
        some (set_nth ls j { nth_line ls j with tag := t, valid := true, age := instr }) := by
  induction ls with
  | nil => simp at h
  | cons l ls ih =>
    by_cases h1 : l.valid = false
    · refine ⟨0, by simp, h1, by omega, ?_⟩
      simp [install_first_invalid, h1]
    · have h1t : l.valid = true := by
        cases hv : l.valid
        · exact absurd hv h1
        · rfl
      have h2 : ∃ l' ∈ ls, l'.valid = false := by
        rcases h with ⟨l', hl', hp⟩
        rcases List.mem_cons.mp hl' with rfl | hm
        · exact absurd hp h1
        · exact ⟨l', hm, hp⟩
      rcases ih h2 with ⟨j, hj, hjv, hfirst, heq⟩
      refine ⟨j + 1, by simp; omega, by simpa using hjv, ?_, ?_⟩
      · intro k hk
        cases k with
        | zero => simpa using h1t
        | succ m => simpa using hfirst m (by omega)
      · simp [install_first_invalid, h1t, heq]

/-- What the oldest-line scan returns: either the accumulated candidate
(when no age beats it) or `i` plus the position of the first line whose
age is the strict minimum of the remaining ages and beats the candidate. -/
theorem oldest_scan_spec (ls : List CacheLine) :
    ∀ i best best_age,
      (oldest_scan ls i best best_age = best ∧
        ∀ k, k < ls.length → best_age ≤ (nth_line ls k).age) ∨
      (∃ j, j < ls.length ∧ oldest_scan ls i best best_age = i + j ∧
        (nth_line ls j).age < best_age ∧
        (∀ k, k < ls.length → (nth_line ls j).age ≤ (nth_line ls k).age) ∧
        (∀ k, k < j → (nth_line ls j).age < (nth_line ls k).age)) := by
  induction ls with
  | nil =>
    intro i best best_age
    left
    exact ⟨rfl, by intro k hk; simp at hk⟩
  | cons l ls ih =>
    intro i best best_age
    by_cases h1 : l.age < best_age
    · right
      rcases ih (i + 1) i l.age with ⟨hres, hall⟩ | ⟨j, hj, hres, hlt, hmin, hfirst⟩
      · refine ⟨0, by simp, ?_, by simpa using h1, ?_, by omega⟩
        · simp [oldest_scan, h1, hres]
        · intro k hk
          cases k with
          | zero => simp
          | succ m => simpa using hall m (by simp at hk; omega)
      · refine ⟨j + 1, by simp; omega, ?_, ?_, ?_, ?_⟩
        · simp only [oldest_scan, if_pos h1, hres]
          omega
        · simpa using lt_trans hlt h1
        · intro k hk
          cases k with
          | zero => simpa using le_of_lt hlt
          | succ m => simpa using hmin m (by simp at hk; omega)
        · intro k hk
          cases k with
          | zero => simpa using hlt
          | succ m => simpa using hfirst m (by omega)
    · rcases ih (i + 1) best best_age with ⟨hres, hall⟩ | ⟨j, hj, hres, hlt, hmin, hfirst⟩
      · left
        refine ⟨by simp [oldest_scan, h1, hres], ?_⟩
        intro k hk
        cases k with
        | zero => simpa using Nat.le_of_not_lt h1
        | succ m => simpa using hall m (by simp at hk; omega)
      · right
        refine ⟨j + 1, by simp; omega, ?_, by simpa using hlt, ?_, ?_⟩
        · simp only [oldest_scan, if_neg h1, hres]
          omega
        · intro k hk
          cases k with
          | zero =>
            have : (nth_line ls j).age < l.age := lt_of_lt_of_le hlt (Nat.le_of_not_lt h1)
            simpa using le_of_lt this
          | succ m => simpa using hmin m (by simp at hk; omega)
        · intro k hk
          cases k with
          | zero => simpa using lt_of_lt_of_le hlt (Nat.le_of_not_lt h1)
          | succ m => simpa using hfirst m (by omega)

/-- The victim index: in range, of minimal age, and the first such. -/
theorem oldest_idx_spec (ls : List CacheLine) (hne : ls ≠ []) :
    oldest_idx ls < ls.length ∧
    (∀ k, k < ls.length → (nth_line ls (oldest_idx ls)).age ≤ (nth_line ls k).age) ∧
    (∀ k, k < oldest_idx ls → (nth_line ls (oldest_idx ls)).age < (nth_line ls k).age) := by
  have hlen : 0 < ls.length := List.length_pos.mpr hne
  rcases oldest_scan_spec ls 0 0 (nth_line ls 0).age with ⟨hres, hall⟩ |
    ⟨j, hj, hres, _hlt, hmin, hfirst⟩
  · have h0 : oldest_idx ls = 0 := hres
    rw [h0]
    exact ⟨hlen, hall, by omega⟩
  · have h0 : oldest_idx ls = j := by
      unfold oldest_idx
      omega
    rw [h0]
    exact ⟨hj, hmin, hfirst⟩

/-- C1: `miss` bumps `miss_count` and then either installs the tag in
the first invalid line of the set (valid set, tag written, age set to
the access counter) with no eviction, or — when every line is valid —
bumps `evict_count` and overwrites tag and age of the line whose age is
minimal, ties going to the first line in scan order. -/
theorem miss_spec (cache : Cache) (st : CacheSet) (t : Nat) (hne : st.lines ≠ []) :
    (miss cache st t).2.miss_count = cache.miss_count + 1 ∧
    (miss cache st t).2.hit_count = cache.hit_count ∧
    (miss cache st t).2.instr_count = cache.instr_count ∧
    ((∃ l ∈ st.lines, l.valid = false) →
      (miss cache st t).2.evict_count = cache.evict_count ∧
      ∃ j, j < st.lines.length ∧ (nth_line st.lines j).valid = false ∧
        (∀ k, k < j → (nth_line st.lines k).valid = true) ∧
        (miss cache st t).1.lines =
          set_nth st.lines j
            { nth_line st.lines j with tag := t, valid := true, age := cache.instr_count }) ∧
    ((∀ l ∈ st.lines, l.valid = true) →
      (miss cache st t).2.evict_count = cache.evict_count + 1 ∧
      ∃ j, j < st.lines.length ∧
        (∀ k, k < st.lines.length → (nth_line st.lines j).age ≤ (nth_line st.lines k).age) ∧
        (∀ k, k < j → (nth_line st.lines j).age < (nth_line st.lines k).age) ∧
        (miss cache st t).1.lines =
          set_nth st.lines j { nth_line st.lines j with tag := t, age := cache.instr_count }) := by
  cases hI : install_first_invalid cache.instr_count t st.lines with
  | some ls2 =>
    have hmiss : miss cache st t = (⟨ls2⟩, { cache with miss_count := cache.miss_count + 1 }) := by
      simp [miss, hI]
    rw [hmiss]
    refine ⟨rfl, rfl, rfl, ?_, ?_⟩
    · intro h
      rcases install_find cache.instr_count t st.lines h with ⟨j, hj, hjv, hfirst, heq⟩
      rw [hI] at heq
      refine ⟨rfl, j, hj, hjv, hfirst, ?_⟩
      simpa using (Option.some.injEq _ _ ▸ heq : _)
    · intro h
      rw [install_eq_none cache.instr_count t st.lines h] at hI
      exact absurd hI (by simp)
  | none =>
    have hmiss : miss cache st t =
        (⟨modify_line st.lines (oldest_idx st.lines)
            (fun l => { l with tag := t, age := cache.instr_count })⟩,
          { cache with
            miss_count := cache.miss_count + 1
            evict_count := cache.evict_count + 1 }) := by
      simp [miss, hI, evict]
    rw [hmiss]
    refine ⟨rfl, rfl, rfl, ?_, ?_⟩
    · intro h
      rcases install_find cache.instr_count t st.lines h with ⟨j, hj, hjv, hfirst, heq⟩
      rw [hI] at heq
      exact absurd heq (by simp)
    · intro _
      rcases oldest_idx_spec st.lines hne with ⟨hj, hmin, hfirst⟩
      refine ⟨rfl, oldest_idx st.lines, hj, hmin, hfirst, ?_⟩
      simp [modify_line_eq st.lines (oldest_idx st.lines) _ hj]

/-- Witness for C1: a two-line set with one invalid line, and a full
two-line set, both behave as stated at tag 9. -/
theorem miss_spec_witness :
    (miss (make_cache 0 2 0) (make_cache_set 2) 9).2.miss_count =
      (make_cache 0 2 0).miss_count + 1 :=
  (miss_spec (make_cache 0 2 0) (make_cache_set 2) 9 (by decide)).1

/-! ### How one `lookup` call rewrites the cache -/

/-- The lines of the set an address selects. -/
def lines_at (a : Nat) (c : Cache) : List CacheLine :=
  (nth_set c.set_arry (set_for a c)).lines

theorem tag_for_bump (a : Nat) (c : Cache) :
    tag_for a { c with instr_count := c.instr_count + 1 } = tag_for a c := rfl

theorem set_for_bump (a : Nat) (c : Cache) :
    set_for a { c with instr_count := c.instr_count + 1 } = set_for a c := rfl

/-- A `lookup` that hits: the age-refreshed set is written back and
`instr_count` and `hit_count` are bumped. -/
theorem lookup_hit_eq (a : Nat) (c : Cache) (ls2 : List CacheLine)
    (h : hit_scan (c.instr_count + 1) (tag_for a c) (lines_at a c) = some ls2) :
    lookup a c = { c with
      instr_count := c.instr_count + 1
      hit_count := c.hit_count + 1
      set_arry := set_nth c.set_arry (set_for a c) ⟨ls2⟩ } := by
  simp only [lines_at] at h
  simp [lookup, check_for_hit, tag_for_bump, set_for_bump, h]

/-- A `lookup` that misses with a free line: the filled set is written
back and `instr_count` and `miss_count` are bumped. -/
theorem lookup_install_eq (a : Nat) (c : Cache) (ls2 : List CacheLine)
    (hh : hit_scan (c.instr_count + 1) (tag_for a c) (lines_at a c) = none)
    (hi : install_first_invalid (c.instr_count + 1) (tag_for a c) (lines_at a c) = some ls2) :
    lookup a c = { c with
      instr_count := c.instr_count + 1
      miss_count := c.miss_count + 1
      set_arry := set_nth c.set_arry (set_for a c) ⟨ls2⟩ } := by
  simp only [lines_at] at hh hi
  simp [lookup, check_for_hit, miss, tag_for_bump, set_for_bump, hh, hi]

/-- A `lookup` that misses on a full set: the victim line is
overwritten and `instr_count`, `miss_count` and `evict_count` are
bumped. -/
theorem lookup_evict_eq (a : Nat) (c : Cache)
    (hh : hit_scan (c.instr_count + 1) (tag_for a c) (lines_at a c) = none)
    (hi : install_first_invalid (c.instr_count + 1) (tag_for a c) (lines_at a c) = none) :
    lookup a c = { c with
      instr_count := c.instr_count + 1
      miss_count := c.miss_count + 1
      evict_count := c.evict_count + 1
      set_arry := set_nth c.set_arry (set_for a c)
        ⟨modify_line (lines_at a c) (oldest_idx (lines_at a c))
          (fun l => { l with tag := tag_for a c, age := c.instr_count + 1 })⟩ } := by
  simp only [lines_at] at hh hi
  simp [lookup, check_for_hit, miss, evict, tag_for_bump, set_for_bump, hh, hi, lines_at]

/-- Every `lookup` goes down exactly one of the three branches. -/
theorem lookup_cases (a : Nat) (c : Cache) :
    (∃ ls2, hit_scan (c.instr_count + 1) (tag_for a c) (lines_at a c) = some ls2) ∨
    (hit_scan (c.instr_count + 1) (tag_for a c) (lines_at a c) = none ∧
      ∃ ls2, install_first_invalid (c.instr_count + 1) (tag_for a c) (lines_at a c) = some ls2) ∨
    (hit_scan (c.instr_count + 1) (tag_for a c) (lines_at a c) = none ∧
      install_first_invalid (c.instr_count + 1) (tag_for a c) (lines_at a c) = none) := by
  cases h1 : hit_scan (c.instr_count + 1) (tag_for a c) (lines_at a c) with
  | some ls2 => exact Or.inl ⟨ls2, rfl⟩
  | none =>
    cases h2 : install_first_invalid (c.instr_count + 1) (tag_for a c) (lines_at a c) with
    | some ls2 => exact Or.inr (Or.inl ⟨rfl, ls2, rfl⟩)
    | none => exact Or.inr (Or.inr ⟨rfl, rfl⟩)

/-! ### Counter bookkeeping (C5) -/

/-- One `lookup` bumps `instr_count` by one and `hit_count + miss_count`
by exactly one. -/
theorem lookup_counts_step (a : Nat) (c : Cache) :
    (lookup a c).instr_count = c.instr_count + 1 ∧
    (lookup a c).hit_count + (lookup a c).miss_count = c.hit_count + c.miss_count + 1 ∧
    (lookup a c).hit_count ≥ c.hit_count ∧
    (lookup a c).miss_count ≥ c.miss_count ∧
    (lookup a c).evict_count ≥ c.evict_count := by
  rcases lookup_cases a c with ⟨ls2, h⟩ | ⟨hh, ls2, hi⟩ | ⟨hh, hi⟩
  · rw [lookup_hit_eq a c ls2 h]
    exact ⟨rfl,
      show c.hit_count + 1 + c.miss_count = c.hit_count + c.miss_count + 1 by omega,
      show c.hit_count + 1 ≥ c.hit_count by omega,
      show c.miss_count ≥ c.miss_count by omega,
      show c.evict_count ≥ c.evict_count by omega⟩
  · rw [lookup_install_eq a c ls2 hh hi]
    exact ⟨rfl,
      show c.hit_count + (c.miss_count + 1) = c.hit_count + c.miss_count + 1 by omega,
      show c.hit_count ≥ c.hit_count by omega,
      show c.miss_count + 1 ≥ c.miss_count by omega,
      show c.evict_count ≥ c.evict_count by omega⟩
  · rw [lookup_evict_eq a c hh hi]
    exact ⟨rfl,
      show c.hit_count + (c.miss_count + 1) = c.hit_count + c.miss_count + 1 by omega,
      show c.hit_count ≥ c.hit_count by omega,
      show c.miss_count + 1 ≥ c.miss_count by omega,
      show c.evict_count + 1 ≥ c.evict_count by omega⟩

/-- `call_lookup` bumps the counters by the record's sub-reference
count. -/
theorem call_lookup_counts (a : Nat) (op : Char) (c : Cache) :
    (call_lookup a op c).instr_count = c.instr_count + sub_refs op ∧
    (call_lookup a op c).hit_count + (call_lookup a op c).miss_count =
      c.hit_count + c.miss_count + sub_refs op := by
  by_cases hM : op = 'M'
  · have h1 := lookup_counts_step a c
    have h2 := lookup_counts_step a (lookup a c)
    have he : call_lookup a op c = lookup a (lookup a c) := by simp [call_lookup, hM]
    have hs : sub_refs op = 2 := by simp [sub_refs, hM]
    rw [he, hs]
    omega
  · have h1 := lookup_counts_step a c
    have he : call_lookup a op c = lookup a c := by simp [call_lookup, hM]
    have hs : sub_refs op = 1 := by simp [sub_refs, hM]
    rw [he, hs]
    omega

/-- Folding a trace adds exactly its sub-reference total to
`instr_count` and to `hit_count + miss_count`. -/
theorem run_trace_counts (trace : List (Char × Nat)) :
    ∀ c : Cache,
      (run_trace trace c).hit_count + (run_trace trace c).miss_count =
        c.hit_count + c.miss_count + total_subrefs trace ∧
      (run_trace trace c).instr_count = c.instr_count + total_subrefs trace := by
  induction trace with
  | nil => intro c; simp [run_trace, total_subrefs]
  | cons r rs ih =>
    intro c
    have hstep : run_trace (r :: rs) c = run_trace rs (call_lookup r.2 r.1 c) := rfl
    have ht : total_subrefs (r :: rs) = sub_refs r.1 + total_subrefs rs := rfl
    rcases ih (call_lookup r.2 r.1 c) with ⟨h1, h2⟩
    rcases call_lookup_counts r.2 r.1 c with ⟨h3, h4⟩
    rw [hstep, ht]
    omega

/-- C5: over any trace run from a fresh cache, `hit_count + miss_count`
equals the total number of sub-references (one per record, two for a
modify record), that total equals the final `instr_count`, and each
single `lookup` call bumps `instr_count` by exactly one. -/
theorem trace_counts_spec (trace : List (Char × Nat)) (s A b : Nat) :
    (run_trace trace (make_cache s A b)).hit_count +
      (run_trace trace (make_cache s A b)).miss_count = total_subrefs trace ∧
    (run_trace trace (make_cache s A b)).instr_count = total_subrefs trace ∧
    ∀ (c : Cache) (a : Nat), (lookup a c).instr_count = c.instr_count + 1 := by
  rcases run_trace_counts trace (make_cache s A b) with ⟨h1, h2⟩
  have hz : (make_cache s A b).hit_count = 0 ∧ (make_cache s A b).miss_count = 0 ∧
      (make_cache s A b).instr_count = 0 := ⟨rfl, rfl, rfl⟩
  exact ⟨by omega, by omega, fun c a => (lookup_counts_step a c).1⟩

/-! ### Converse characterizations of the scans -/

/-- A successful hit scan is exactly an age refresh of the first
matching line. -/
theorem hit_scan_some_char (instr t : Nat) (ls ls2 : List CacheLine)
    (h : hit_scan instr t ls = some ls2) :
    ∃ j, j < ls.length ∧ (nth_line ls j).tag = t ∧ (nth_line ls j).valid = true ∧
      (∀ k, k < j → ¬((nth_line ls k).tag = t ∧ (nth_line ls k).valid = true)) ∧
      ls2 = set_nth ls j { nth_line ls j with age := instr } := by
  have hex : ∃ l ∈ ls, l.tag = t ∧ l.valid = true := by
    by_contra hno
    push_neg at hno
    rw [hit_scan_eq_none instr t ls (fun l hl => by have := hno l hl; tauto)] at h
    exact absurd h (by simp)
  rcases hit_scan_find instr t ls hex with ⟨j, hj, h1, h2, h3, heq⟩
  rw [h] at heq
  exact ⟨j, hj, h1, h2, h3, Option.some.inj heq⟩

/-- A successful install is exactly a fill of the first invalid line. -/
theorem install_some_char (instr t : Nat) (ls ls2 : List CacheLine)
    (h : install_first_invalid instr t ls = some ls2) :
    ∃ j, j < ls.length ∧ (nth_line ls j).valid = false ∧
      (∀ k, k < j → (nth_line ls k).valid = true) ∧
      ls2 = set_nth ls j { nth_line ls j with tag := t, valid := true, age := instr } := by
  have hex : ∃ l ∈ ls, l.valid = false := by
    by_contra hno
    push_neg at hno
    rw [install_eq_none instr t ls (fun l hl => by
      have hnf := hno l hl
      rcases Bool.eq_false_or_eq_true l.valid with hf | ht
      · exact hf
      · exact absurd ht hnf)] at h
    exact absurd h (by simp)
  rcases install_find instr t ls hex with ⟨j, hj, h1, h2, heq⟩
  rw [h] at heq
  exact ⟨j, hj, h1, h2, Option.some.inj heq⟩

/-! ### Eviction-count invariant (C6) -/

/-- In a full cache every set the index reaches is all-valid. -/
theorem all_valid_lines (c : Cache) (h : all_valid c = true) (i : Nat) :
    ∀ l ∈ (nth_set c.set_arry i).lines, l.valid = true := by
  by_cases hi : i < c.set_arry.length
  · have hmem : nth_set c.set_arry i ∈ c.set_arry := nth_mem _ _ _ hi
    have h2 := (List.all_eq_true.mp h) _ hmem
    exact fun l hl => (List.all_eq_true.mp h2) l hl
  · intro l hl
    have he : nth_set c.set_arry i = ⟨[]⟩ := nth_oob _ _ _ (by omega)
    rw [he] at hl
    simp at hl

/-- One `lookup` preserves `evict_count ≤ miss_count`. -/
theorem lookup_evict_le (a : Nat) (c : Cache) (h : c.evict_count ≤ c.miss_count) :
    (lookup a c).evict_count ≤ (lookup a c).miss_count := by
  rcases lookup_cases a c with ⟨ls2, hh⟩ | ⟨hh, ls2, hi⟩ | ⟨hh, hi⟩
  · rw [lookup_hit_eq a c ls2 hh]
    exact h
  · rw [lookup_install_eq a c ls2 hh hi]
    exact show c.evict_count ≤ c.miss_count + 1 by omega
  · rw [lookup_evict_eq a c hh hi]
    exact show c.evict_count + 1 ≤ c.miss_count + 1 by omega

/-- The inequality survives any sequence of lookups. -/
theorem run_lookups_evict_le (addrs : List Nat) :
    ∀ c : Cache, c.evict_count ≤ c.miss_count →
      (run_lookups addrs c).evict_count ≤ (run_lookups addrs c).miss_count := by
  induction addrs with
  | nil => intro c h; exact h
  | cons a as ih => intro c h; exact ih (lookup a c) (lookup_evict_le a c h)

theorem all_sets_valid_set_nth (ss : List CacheSet) (i : Nat) (st2 : CacheSet)
    (hv : ss.all (fun st => st.lines.all (fun l => l.valid)) = true)
    (hst : st2.lines.all (fun l => l.valid) = true) :
    (set_nth ss i st2).all (fun st => st.lines.all (fun l => l.valid)) = true := by
  rw [List.all_eq_true] at hv ⊢
  intro st hmem
  rcases mem_set_nth ss i st2 st hmem with rfl | hmem2
  · exact hst
  · exact hv st hmem2

/-- Once every line is valid, `lookup` keeps every line valid. -/
theorem lookup_all_valid (c : Cache) (a : Nat) (hv : all_valid c = true) :
    all_valid (lookup a c) = true := by
  have hlines := all_valid_lines c hv (set_for a c)
  rcases lookup_cases a c with ⟨ls2, hh⟩ | ⟨hh, ls2, hi⟩ | ⟨hh, hi⟩
  · rw [lookup_hit_eq a c ls2 hh]
    simp only [all_valid]
    apply all_sets_valid_set_nth _ _ _ hv
    rw [List.all_eq_true]
    rcases hit_scan_some_char _ _ _ _ hh with ⟨j, hj, _, hjv, _, rfl⟩
    intro l hl
    rcases mem_set_nth _ _ _ _ hl with rfl | hm
    · exact hjv
    · exact hlines l hm
  · have hnone := install_eq_none (c.instr_count + 1) (tag_for a c) (lines_at a c) hlines
    rw [hnone] at hi
    exact absurd hi (by simp)
  · rw [lookup_evict_eq a c hh hi]
    simp only [all_valid]
    apply all_sets_valid_set_nth _ _ _ hv
    rw [List.all_eq_true]
    intro l hl
    by_cases hjlen : oldest_idx (lines_at a c) < (lines_at a c).length
    · rw [modify_line_eq _ _ _ hjlen] at hl
      rcases mem_set_nth _ _ _ _ hl with rfl | hm
      · show (nth_line (lines_at a c) (oldest_idx (lines_at a c))).valid = true
        exact hlines _ (nth_mem make_cache_line (lines_at a c) (oldest_idx (lines_at a c)) hjlen)
      · exact hlines l hm
    · rw [modify_line_oob _ _ _ (by omega)] at hl
      exact hlines l hl

/-- On a full cache a miss always evicts. -/
theorem lookup_full_evicts (c : Cache) (a : Nat) (hv : all_valid c = true)
    (hm : (lookup a c).miss_count = c.miss_count + 1) :
    (lookup a c).evict_count = c.evict_count + 1 := by
  have hlines := all_valid_lines c hv (set_for a c)
  rcases lookup_cases a c with ⟨ls2, hh⟩ | ⟨hh, ls2, hi⟩ | ⟨hh, hi⟩
  · rw [lookup_hit_eq a c ls2 hh] at hm
    exact absurd hm (show ¬(c.miss_count = c.miss_count + 1) by omega)
  · have hnone := install_eq_none (c.instr_count + 1) (tag_for a c) (lines_at a c) hlines
    rw [hnone] at hi
    exact absurd hi (by simp)
  · rw [lookup_evict_eq a c hh hi]

/-- C6: from a fresh cache, `eviction_count ≤ miss_count` after every
sequence of lookups (hence after every call); being full is preserved
by `lookup`; and on a full cache every `lookup` that misses also bumps
`eviction_count`. -/
theorem evict_le_miss_inv :
    (∀ (s A b : Nat) (addrs : List Nat),
      (run_lookups addrs (make_cache s A b)).evict_count ≤
        (run_lookups addrs (make_cache s A b)).miss_count) ∧
    (∀ (c : Cache) (a : Nat), all_valid c = true → all_valid (lookup a c) = true) ∧
    (∀ (c : Cache) (a : Nat), all_valid c = true →
      (lookup a c).miss_count = c.miss_count + 1 →
      (lookup a c).evict_count = c.evict_count + 1) := by
  refine ⟨?_, ?_, ?_⟩
  · intro s A b addrs
    exact run_lookups_evict_le addrs (make_cache s A b) (Nat.le_refl 0)
  · exact fun c a h => lookup_all_valid c a h
  · exact fun c a h hm => lookup_full_evicts c a h hm

/-- Witness for C6 on a filled two-line fully-associative cache: the
miss on address 2 evicts. -/
theorem evict_le_miss_inv_witness :
    (lookup 2 (run_lookups [0, 1] (make_cache 0 2 0))).evict_count =
      (run_lookups [0, 1] (make_cache 0 2 0)).evict_count + 1 :=
  evict_le_miss_inv.2.2 (run_lookups [0, 1] (make_cache 0 2 0)) 2 (by decide) (by decide)

/-! ### Valid-bit monotonicity (C9) and the frame of a lookup (C10) -/

theorem nth_set_set_self (ss : List CacheSet) (n : Nat) (v : CacheSet)
    (h : n < ss.length) : nth_set (set_nth ss n v) n = v :=
  nth_set_nth_self _ ss n v h

theorem nth_set_set_ne (ss : List CacheSet) (n k : Nat) (v : CacheSet)
    (h : n ≠ k) : nth_set (set_nth ss n v) k = nth_set ss k :=
  nth_set_nth_ne _ ss n k v h

theorem nth_line_set_self (ls : List CacheLine) (n : Nat) (v : CacheLine)
    (h : n < ls.length) : nth_line (set_nth ls n v) n = v :=
  nth_set_nth_self _ ls n v h

theorem nth_line_set_ne (ls : List CacheLine) (n k : Nat) (v : CacheLine)
    (h : n ≠ k) : nth_line (set_nth ls n v) k = nth_line ls k :=
  nth_set_nth_ne _ ls n k v h

/-- Writing one set back: validity at any coordinate can only rise if
it can only rise inside the written set. -/
theorem nth_valid_set_nth_mono (ss : List CacheSet) (ms : Nat) (ls2 : List CacheLine)
    (i k : Nat)
    (hL : ∀ k2, (nth_line (nth_set ss ms).lines k2).valid = true →
      (nth_line ls2 k2).valid = true)
    (h : (nth_line (nth_set ss i).lines k).valid = true) :
    (nth_line (nth_set (set_nth ss ms ⟨ls2⟩) i).lines k).valid = true := by
  by_cases hims : ms = i
  · subst hims
    by_cases hbound : ms < ss.length
    · rw [nth_set_set_self ss ms _ hbound]
      exact hL k h
    · rw [set_nth_oob ss ms _ (by omega)]
      exact h
  · rw [nth_set_set_ne ss ms i _ hims]
    exact h

/-- Overwriting line `j` only raises validity elsewhere when the new
line's valid bit is at least the old one's. -/
theorem nth_valid_line_write (ls : List CacheLine) (j : Nat) (v : CacheLine)
    (hj : j < ls.length)
    (hvv : (nth_line ls j).valid = true → v.valid = true) :
    ∀ k2, (nth_line ls k2).valid = true → (nth_line (set_nth ls j v) k2).valid = true := by
  intro k2 h2
  by_cases hk : j = k2
  · subst hk
    rw [nth_line_set_self ls j v hj]
    exact hvv h2
  · rw [nth_line_set_ne ls j k2 v hk]
    exact h2

/-- C9: a line's valid flag is monotone. Once the line at any
coordinate `(i, k)` is valid, it is still valid after any further
`lookup`; no operation ever clears a valid flag. -/
theorem lookup_valid_mono (a : Nat) (c : Cache) (i k : Nat)
    (h : (nth_line (nth_set c.set_arry i).lines k).valid = true) :
    (nth_line (nth_set (lookup a c).set_arry i).lines k).valid = true := by
  rcases lookup_cases a c with ⟨ls2, hh⟩ | ⟨hh, ls2, hi⟩ | ⟨hh, hi⟩
  · rcases hit_scan_some_char _ _ _ _ hh with ⟨j, hj, _, _, _, rfl⟩
    rw [lookup_hit_eq a c _ hh]
    exact nth_valid_set_nth_mono c.set_arry (set_for a c) _ i k
      (nth_valid_line_write (lines_at a c) j _ hj (fun h2 => h2)) h
  · rcases install_some_char _ _ _ _ hi with ⟨j, hj, _, _, rfl⟩
    rw [lookup_install_eq a c _ hh hi]
    exact nth_valid_set_nth_mono c.set_arry (set_for a c) _ i k
      (nth_valid_line_write (lines_at a c) j _ hj (fun _ => rfl)) h
  · rw [lookup_evict_eq a c hh hi]
    by_cases hjlen : oldest_idx (lines_at a c) < (lines_at a c).length
    · rw [modify_line_eq _ _ _ hjlen]
      exact nth_valid_set_nth_mono c.set_arry (set_for a c) _ i k
        (nth_valid_line_write (lines_at a c) (oldest_idx (lines_at a c)) _ hjlen
          (fun h2 => h2)) h
    · rw [modify_line_oob _ _ _ (by omega)]
      exact nth_valid_set_nth_mono c.set_arry (set_for a c) _ i k
        (fun _ h2 => h2) h

/-- C9 (sequence form): a valid line stays valid across any further
sequence of lookups. -/
theorem valid_monotone (addrs : List Nat) (c : Cache) (i k : Nat)
    (h : (nth_line (nth_set c.set_arry i).lines k).valid = true) :
    (nth_line (nth_set (run_lookups addrs c).set_arry i).lines k).valid = true := by
  induction addrs generalizing c with
  | nil => exact h
  | cons a as ih => exact ih (lookup a c) (lookup_valid_mono a c i k h)

/-- Witness for C9: the line installed by the first lookup is still
valid after two further lookups at other addresses. -/
theorem valid_monotone_witness :
    (nth_line (nth_set (run_lookups [1, 2] (lookup 0 (make_cache 0 1 0))).set_arry 0).lines
      0).valid = true :=
  valid_monotone [1, 2] (lookup 0 (make_cache 0 1 0)) 0 0 (by decide)

/-- Writing one set back changes no line outside coordinate
`(ms, j)` when the written set agrees with the old one off `j`. -/
theorem frame_write (ss : List CacheSet) (ms j : Nat) (ls2 : List CacheLine)
    (hL : ∀ k, k ≠ j → nth_line ls2 k = nth_line (nth_set ss ms).lines k) :
    ∀ i k, ¬(i = ms ∧ k = j) →
      nth_line (nth_set (set_nth ss ms ⟨ls2⟩) i).lines k =
        nth_line (nth_set ss i).lines k := by
  intro i k hik
  by_cases hims : ms = i
  · subst hims
    have hk : k ≠ j := fun hkj => hik ⟨rfl, hkj⟩
    by_cases hbound : ms < ss.length
    · rw [nth_set_set_self ss ms _ hbound]
      exact hL k hk
    · rw [set_nth_oob ss ms _ (by omega)]
  · rw [nth_set_set_ne ss ms i _ hims]

/-- A single `set_nth` write agrees with the original off the written
index. -/
theorem frame_line_write (ls : List CacheLine) (j : Nat) (v : CacheLine) :
    ∀ k, k ≠ j → nth_line (set_nth ls j v) k = nth_line ls k :=
  fun k hk => nth_line_set_ne ls j k v (fun h => hk h.symm)

/-- C10: one `lookup` never touches the geometry fields or the shape of
the set array, and it rewrites at most one cache line: there is a line
index `j` such that every line outside coordinate
`(set_for a c, j)` is exactly what it was before the call. -/
theorem lookup_frame (a : Nat) (c : Cache) :
    (lookup a c).set_bits = c.set_bits ∧
    (lookup a c).associativity = c.associativity ∧
    (lookup a c).block_bits = c.block_bits ∧
    (lookup a c).num_sets = c.num_sets ∧
    (lookup a c).num_blocks = c.num_blocks ∧
    (lookup a c).set_arry.length = c.set_arry.length ∧
    ∃ j, ∀ i k, ¬(i = set_for a c ∧ k = j) →
      nth_line (nth_set (lookup a c).set_arry i).lines k =
        nth_line (nth_set c.set_arry i).lines k := by
  rcases lookup_cases a c with ⟨ls2, hh⟩ | ⟨hh, ls2, hi⟩ | ⟨hh, hi⟩
  · rcases hit_scan_some_char _ _ _ _ hh with ⟨j, _, _, _, _, rfl⟩
    rw [lookup_hit_eq a c _ hh]
    exact ⟨rfl, rfl, rfl, rfl, rfl, length_set_nth _ _ _, j,
      frame_write c.set_arry (set_for a c) j _ (frame_line_write (lines_at a c) j _)⟩
  · rcases install_some_char _ _ _ _ hi with ⟨j, _, _, _, rfl⟩
    rw [lookup_install_eq a c _ hh hi]
    exact ⟨rfl, rfl, rfl, rfl, rfl, length_set_nth _ _ _, j,
      frame_write c.set_arry (set_for a c) j _ (frame_line_write (lines_at a c) j _)⟩
  · rw [lookup_evict_eq a c hh hi]
    by_cases hjlen : oldest_idx (lines_at a c) < (lines_at a c).length
    · rw [modify_line_eq _ _ _ hjlen]
      exact ⟨rfl, rfl, rfl, rfl, rfl, length_set_nth _ _ _, oldest_idx (lines_at a c),
        frame_write c.set_arry (set_for a c) _ _
          (frame_line_write (lines_at a c) (oldest_idx (lines_at a c)) _)⟩
    · rw [modify_line_oob _ _ _ (by omega)]
      exact ⟨rfl, rfl, rfl, rfl, rfl, length_set_nth _ _ _, 0,
        frame_write c.set_arry (set_for a c) 0 _ (fun k _ => rfl)⟩
